import Mathlib

/-!
Verification of the TrackMeister asset-pipeline specification against the
font-conversion source (src/font/convert_font.py).

The Python code is shallowly embedded:

* npot mirrors the power-of-two rounding loop (convert_font.py:42-47);
  the Python while loop is embedded with an explicit fuel argument that is
  provably never exhausted (npotGo_eq below).
* The skyline packer of MultiFontAtlas.__init__ (convert_font.py:53-70)
  is embedded over an association list mirroring the Python heights dict
  (insertion order preserved, keys distinct; min/max over tuples are
  lexicographic and hence order-independent).
* sort_glyphs (convert_font.py:90-97), the MSDF and bitmap glyph record
  construction (convert_font.py:124-143 and convert_font.py:160-165),
  and the fallback-index loop of the main block (convert_font.py:199-207)
  are embedded directly.
* The repository contains no RunCodec source; it is modelled from the
  spec (section 4.2) below.

Python float values are modelled as Rat; no claim below depends on
rounding behaviour.
-/

/-- Embedding of the loop body of npot (convert_font.py:42-47).  The Python
loop `while x & (x - 1):` is given explicit fuel; fuel 0 returns x
unchanged, which coincides with the loop exit because the fuel chosen in
npot is proven sufficient (npotGo_eq). -/
def npotGo : Nat → Nat → Nat → Nat
  | 0, _, x => x
  | fuel + 1, shift, x =>
    if x &&& (x - 1) = 0 then x
    else npotGo fuel (shift <<< 1) ((((x - 1) ||| ((x - 1) >>> shift)) + 1))

/-- Function npot from convert_font.py:42-47: round up to the next power of two. -/
def npot (x : Nat) : Nat := npotGo x 1 x

/-- Predicate isspace from convert_font.py:49-50. -/
def isspace (cp : Nat) : Bool := cp == 0x20 || cp == 0xA0

/-! ### The skyline packer of MultiFontAtlas.__init__ (convert_font.py:53-70)

The Python heights dict is modelled as an association list Sky of
(x-start, current height) pairs in insertion order; keys are created by
setKey and never removed, matching dict semantics.  The Python min and max
over tuples of distinct first components are lexicographic minima/maxima and
do not depend on iteration order.
-/

/-- Skyline state: the heights dict as an (insertion-ordered) association list. -/
abbrev Sky := List (Nat × Nat)

/-- Expression `max(cy0 for cx0,cy0 in heights.items() if (x0 <= cx0 < (x0 + w)))`
(convert_font.py:64): the maximal height among the skyline keys covered by
a bitmap of width w placed at x0.  The fold starts at 0; in the code the
filtered set always contains x0 itself, so this equals the Python max. -/
def coverMax (sky : Sky) (x0 w : Nat) : Nat :=
  (sky.filter (fun p => x0 ≤ p.1 && p.1 < x0 + w)).foldl (fun m p => max m p.2) 0

/-- Candidate triples (newh, x0, y0) of convert_font.py:64: one for
every skyline key x0 with `x0 <= width - w`. -/
def candidates (W : Nat) (sky : Sky) (w h : Nat) : List (Nat × Nat × Nat) :=
  (sky.filter (fun p => p.1 + w ≤ W)).map (fun p => (coverMax sky p.1 w + h, p.1, p.2))

/-- Strict lexicographic order on the (newh, x, y) triples, mirroring
Python tuple comparison inside the min. -/
def tripLt (a b : Nat × Nat × Nat) : Bool :=
  a.1 < b.1 || (a.1 == b.1 && (a.2.1 < b.2.1 || (a.2.1 == b.2.1 && a.2.2 < b.2.2)))

/-- Python min over a nonempty list of triples (first minimum wins). -/
def listMin : List (Nat × Nat × Nat) → Option (Nat × Nat × Nat)
  | [] => none
  | a :: rest => some (rest.foldl (fun c q => if tripLt q c then q else c) a)

/-- Selection `min(...)` of convert_font.py:64.  In the source the
candidate list is always nonempty (key 0 is always present and every bitmap
fits the canvas width); an empty candidate list would raise ValueError in
Python and is mapped to a default here. -/
def placeStep (W : Nat) (sky : Sky) (w h : Nat) : Nat × Nat × Nat :=
  (listMin (candidates W sky w h)).getD (0, 0, 0)

/-- Expression `max((x0,y0) for x0,y0 in heights.items() if (x0 <= k))[1]`
(convert_font.py:66): the height stored under the largest key at most k. -/
def prevHeightAt (sky : Sky) (k : Nat) : Nat :=
  ((sky.filter (fun p => p.1 ≤ k)).foldl (fun c q => if c.1 ≤ q.1 then q else c) (0, 0)).2

/-- Assignment `heights[k] = v`: update the key in place if present, else append. -/
def setKey (sky : Sky) (k v : Nat) : Sky :=
  if sky.any (fun p => p.1 = k) then sky.map (fun p => if p.1 = k then (k, v) else p)
  else sky ++ [(k, v)]

/-- Update loop `for x0 in heights: if x0 <= x < (x0 + w): heights[x0] = newh`
(convert_font.py:67-69), exactly as written in the source. -/
def lowerUpdate (sky : Sky) (x w newh : Nat) : Sky :=
  sky.map (fun p => if p.1 ≤ x && x < p.1 + w then (p.1, newh) else p)

/-- Record kept for one iteration of the packing loop (convert_font.py:62-69):
the skyline before the step, the bitmap size, the chosen newh and position. -/
structure Step where
  sky : Sky
  size : Nat × Nat
  pickNewh : Nat
  pos : Nat × Nat
  deriving Repr, DecidableEq

/-- One iteration of the packing loop on bitmap (w, h). -/
def packStep (W : Nat) (sky : Sky) (w h : Nat) : Step × Sky :=
  let c := placeStep W sky w h
  let x := c.2.1
  let sky1 := setKey sky (x + w) (prevHeightAt sky (x + w))
  let sky2 := lowerUpdate sky1 x w c.1
  (⟨sky, (w, h), c.1, (x, c.2.2)⟩, sky2)

/-- Packing loop over all bitmaps, returning the final skyline and the
per-bitmap step records. -/
def packGo (W : Nat) (sky : Sky) : List (Nat × Nat) → Sky × List Step
  | [] => (sky, [])
  | s :: rest =>
    let r := packStep W sky s.1 s.2
    let t := packGo W r.2 rest
    (t.1, r.1 :: t.2)

/-- Descending sort relation used by
`sorted(self.fonts, key=lambda font: font.img.size, reverse=True)`
(convert_font.py:59): lexicographic on the (width, height) pair,
largest first. -/
def sizeGe (a b : Nat × Nat) : Prop :=
  b.1 < a.1 ∨ (b.1 = a.1 ∧ b.2 ≤ a.2)

instance : DecidableRel sizeGe := fun a b => by
  unfold sizeGe
  infer_instance

instance : IsTotal (Nat × Nat) sizeGe :=
  ⟨by intro a b; unfold sizeGe; omega⟩

instance : IsTrans (Nat × Nat) sizeGe :=
  ⟨by intro a b c hab hbc; unfold sizeGe at *; omega⟩

/-- List atlas_order of convert_font.py:59.  The Python sort is stable;
insertionSort over the total preorder sizeGe is stable as well, so the two
agree element by element. -/
def atlasOrder (sizes : List (Nat × Nat)) : List (Nat × Nat) :=
  sizes.insertionSort sizeGe

/-- Canvas width `npot(atlas_order[0].img.size[0])` (convert_font.py:60). -/
def canvasW (sizes : List (Nat × Nat)) : Nat :=
  npot ((atlasOrder sizes).headD (0, 0)).1

/-- Whole packing run starting from `heights = {0:0}` (convert_font.py:61). -/
def packRun (sizes : List (Nat × Nat)) : Sky × List Step :=
  packGo (canvasW sizes) [(0, 0)] (atlasOrder sizes)

/-- Expression `max(heights.values())` (convert_font.py:70); heights are
naturals so folding from 0 equals the Python max over the nonempty dict. -/
def maxVal (sky : Sky) : Nat := sky.foldl (fun m p => max m p.2) 0

/-- Width of the widest bitmap in a size list (0 for the empty list). -/
def maxWidth (sizes : List (Nat × Nat)) : Nat :=
  sizes.foldr (fun s m => max s.1 m) 0

/-- Result of MultiFontAtlas.__init__: canvas size and the placements
(font.atlas_pos) in processing order, paired with the bitmap sizes. -/
structure PackResult where
  width : Nat
  height : Nat
  placements : List ((Nat × Nat) × (Nat × Nat))
  deriving Repr, DecidableEq

/-- Atlas geometry computation of convert_font.py:53-70. -/
def pack (sizes : List (Nat × Nat)) : PackResult :=
  let r := packRun sizes
  ⟨canvasW sizes, npot (maxVal r.1), r.2.map (fun st => (st.size, st.pos))⟩

/-- Axis-aligned overlap of two placed bitmaps ((w,h),(x,y)). -/
def rectsOverlap (a b : (Nat × Nat) × (Nat × Nat)) : Bool :=
  a.2.1 < b.2.1 + b.1.1 && b.2.1 < a.2.1 + a.1.1 &&
  a.2.2 < b.2.2 + b.1.2 && b.2.2 < a.2.2 + a.1.2

/-! ### Font.sort_glyphs (convert_font.py:90-97)

A glyph record is a Python tuple (cp, adv, is_space, plane_box, atlas_box)
and sorted compares these tuples lexicographically; the components after
the codepoint are modelled as one abstract linearly ordered payload β, so
a glyph is a pair (cp, rest) ordered lexicographically. -/

/-- Lexicographic comparison of glyph records (codepoint, rest-of-tuple). -/
def glyphLe {β : Type} [LinearOrder β] (a b : Nat × β) : Prop :=
  a.1 < b.1 ∨ (a.1 = b.1 ∧ a.2 ≤ b.2)

instance {β : Type} [LinearOrder β] : DecidableRel (glyphLe (β := β)) := fun a b => by
  unfold glyphLe
  infer_instance

instance {β : Type} [LinearOrder β] : IsTotal (Nat × β) glyphLe := by
  constructor
  intro a b
  unfold glyphLe
  rcases Nat.lt_trichotomy a.1 b.1 with h | h | h
  · exact Or.inl (Or.inl h)
  · rcases le_total a.2 b.2 with h2 | h2
    · exact Or.inl (Or.inr ⟨h, h2⟩)
    · exact Or.inr (Or.inr ⟨h.symm, h2⟩)
  · exact Or.inr (Or.inl h)

instance {β : Type} [LinearOrder β] : IsTrans (Nat × β) glyphLe := by
  constructor
  intro a b c hab hbc
  unfold glyphLe at *
  rcases hab with h1 | ⟨h1, h1'⟩ <;> rcases hbc with h2 | ⟨h2, h2'⟩
  · exact Or.inl (h1.trans h2)
  · exact Or.inl (h2 ▸ h1)
  · exact Or.inl (h1 ▸ h2)
  · exact Or.inr ⟨h1.trans h2, h1'.trans h2'⟩

/-- The _uniq generator of convert_font.py:92-96: prev starts at 0 and
a glyph is yielded only when its codepoint differs from prev. -/
def uniqGlyphs {β : Type} : Nat → List (Nat × β) → List (Nat × β)
  | _, [] => []
  | prev, g :: gs =>
    if g.1 ≠ prev then g :: uniqGlyphs g.1 gs else uniqGlyphs g.1 gs

/-- Method Font.sort_glyphs (convert_font.py:90-97):
`self.glyphs = list(_uniq(sorted(self.glyphs)))` where _uniq iterates
`sorted(glyphs)` again (the double sort is kept for faithfulness).  The
Python sort is stable; glyphLe is a linear order on the records, so the
sorted permutation is unique and insertionSort computes it. -/
def sort_glyphs {β : Type} [LinearOrder β] (gs : List (Nat × β)) : List (Nat × β) :=
  uniqGlyphs 0 (List.insertionSort glyphLe (List.insertionSort glyphLe gs))

/-! ### MSDF and bitmap glyph records (convert_font.py:100-166) -/

/-- One planeBounds / atlasBounds entry of the msdf-atlas-gen JSON. -/
structure Bounds where
  left : Rat
  top : Rat
  right : Rat
  bottom : Rat
  deriving Repr, DecidableEq

/-- One glyph of the JSON input to MSDFFont.__init__; absent bounds are
none (Python: `g.get('planeBounds')` / `g.get('atlasBounds')`). -/
structure GlyphIn where
  unicode : Nat
  advance : Rat
  planeBounds : Option Bounds
  atlasBounds : Option Bounds
  deriving Repr, DecidableEq

/-- Glyph record (cp, adv, is_space, plane_box, atlas_box) as appended
at convert_font.py:143 and built at convert_font.py:164. -/
structure GlyphRec where
  cp : Nat
  advance : Rat
  is_space : Bool
  plane_box : Rat × Rat × Rat × Rat
  atlas_box : Rat × Rat × Rat × Rat
  deriving Repr, DecidableEq

/-- Per-glyph record construction of MSDFFont.__init__
(convert_font.py:124-143); mscale, mbase and the atlas height h are
the enclosing locals.  The third tuple component is `not(t and p)`. -/
def msdfGlyph (mscale mbase h : Rat) (g : GlyphIn) : GlyphRec :=
  let adv := g.advance * mscale
  let pb : Rat × Rat × Rat × Rat :=
    match g.planeBounds with
    | some p => (p.left * mscale, mbase - p.top * mscale,
                 p.right * mscale, mbase - p.bottom * mscale)
    | none => (0, 0, 0, 0)
  let tb : Rat × Rat × Rat × Rat :=
    match g.atlasBounds with
    | some t => (t.left, h - t.top, t.right, h - t.bottom)
    | none => (0, 0, 0, 0)
  ⟨g.unicode, adv, !(g.atlasBounds.isSome && g.planeBounds.isSome), pb, tb⟩

/-- Fixed-cell glyph grid coordinates of BitmapFont.__init__
(convert_font.py:163). -/
def bitmapCoords (cellW cellH cols rows : Nat) : List (Nat × Nat) :=
  (List.range rows).flatMap (fun y => (List.range cols).map (fun x => (x * cellW, y * cellH)))

/-- Glyph list of BitmapFont.__init__ (convert_font.py:164-165):
zip of the code-point mapping with the cell coordinates. -/
def bitmapGlyphs (mapping : List Nat) (cellW cellH : Nat) (adv cw : Rat)
    (cols rows : Nat) : List GlyphRec :=
  (mapping.zip (bitmapCoords cellW cellH cols rows)).map
    (fun g => ⟨g.1, adv, isspace g.1, (0, 0, cw, 1),
      ((g.2.1 : Rat), (g.2.2 : Rat), ((g.2.1 + cellW : Nat) : Rat), ((g.2.2 + cellH : Nat) : Rat))⟩)

/-! ### The fallback-glyph loop of the main block (convert_font.py:199-207) -/

/-- Fallback priority list of convert_font.py:201. -/
def fallbackCps : List Nat :=
  [0xFFFD, 0x25FB, 0x25FC, 0x25FD, 0x25FE, 0x25A1, 0x25A0, 0x3F, 0x20]

/-- Dict `cp2idx = { g[0]:i for i,g in enumerate(font.glyphs) }`
(convert_font.py:200), looked up at cp; for duplicate codepoints the later
index wins, as in a dict comprehension. -/
def cp2idx (cps : List Nat) (cp : Nat) : Option Nat :=
  cps.enum.foldl (fun acc p => if p.2 = cp then some p.1 else acc) none

/-- Loop `for cp in (...): try: fallback_index = cp2idx[cp]; break`
(convert_font.py:201-206): the first priority codepoint present wins. -/
def findFallback (cps : List Nat) : Option Nat :=
  fallbackCps.foldl (fun acc c => match acc with
    | some i => some i
    | none => cp2idx cps c) none

/-- Fallback index emitted for each font in order (convert_font.py:198-207).
The Python variable fallback_index is only assigned when the loop finds a
codepoint, so when no priority codepoint exists in a font table the value
carried over from the previous font is emitted (none models the NameError
crash for the first font). -/
def emitFallbacks (fonts : List (List Nat)) : List (Option Nat) :=
  (fonts.foldl (fun (acc : List (Option Nat) × Option Nat) cps =>
    let v := match findFallback cps with
      | some i => some i
      | none => acc.2
    (acc.1 ++ [v], v)) ([], none)).1

/-! ### RunCodec

Modelled from the spec: the repository sources contain no RunCodec
implementation (spec section 4.2 specifies it at its interface only), so
rcEncode / rcDecode below follow the words of the spec: tokens alternate
starting with a zero-run token (a zero-length one if the data starts with a
non-zero byte); a zero-run token is one byte n meaning n zero bytes; a
literal token is a length byte m followed by m literal bytes; runs are
greedy and capped at 255 (longer runs split, with a zero-length token of the
other kind keeping the alternation); a literal run extends through a single
zero byte that is not followed by another zero; decode alternates zero-run
expansion and literal copy until the token stream is exhausted. -/

/-- Length of the leading zero run. -/
def zrun : List Nat → Nat
  | [] => 0
  | b :: bs => if b = 0 then zrun bs + 1 else 0

/-- Length of the maximal literal run: it extends through isolated zero
bytes that do not start a two-or-more-zero run. -/
def litLen : List Nat → Nat
  | [] => 0
  | b :: bs =>
    if b = 0 then
      match bs with
      | [] => 1
      | c :: _ => if c = 0 then 0 else litLen bs + 1
    else litLen bs + 1

theorem zrun_le_length : ∀ d : List Nat, zrun d ≤ d.length := by
  intro d
  induction d with
  | nil => simp [zrun]
  | cons b bs ih => by_cases hb : b = 0 <;> simp [zrun, hb] <;> omega

theorem headD_drop_zrun : ∀ d : List Nat, (d.drop (zrun d)).headD 1 ≠ 0 := by
  intro d
  induction d with
  | nil => simp
  | cons b bs ih =>
    by_cases hb : b = 0
    · simpa [zrun, hb] using ih
    · simpa [zrun, hb] using hb

theorem litLen_pos {l : List Nat} (hne : l ≠ []) (h : l.headD 1 ≠ 0) : 1 ≤ litLen l := by
  cases l with
  | nil => exact absurd rfl hne
  | cons b bs =>
    simp only [List.headD_cons] at h
    simp only [litLen, if_neg h]
    omega

/-- Modelled from the spec: RunCodec encode (spec section 4.2). -/
def rcEncode (d : List Nat) : List Nat :=
  let z := min 255 (zrun d)
  let r1 := d.drop z
  if h255 : z = 255 ∧ r1.headD 1 = 0 then
    255 :: 0 :: rcEncode r1
  else if hr1 : r1 = [] then
    [z]
  else
    let m := min 255 (litLen r1)
    let r2 := r1.drop m
    if r2 = [] then z :: m :: r1.take m
    else z :: m :: (r1.take m ++ rcEncode r2)
termination_by d.length
decreasing_by
  · show (d.drop (min 255 (zrun d))).length < d.length
    have hz := zrun_le_length d
    have h1 : min 255 (zrun d) = 255 := h255.1
    simp only [List.length_drop]
    omega
  · show ((d.drop (min 255 (zrun d))).drop
      (min 255 (litLen (d.drop (min 255 (zrun d)))))).length < d.length
    have hz := zrun_le_length d
    have hne : d.drop (min 255 (zrun d)) ≠ [] := hr1
    have hcontra : ¬ (min 255 (zrun d) = 255 ∧ (d.drop (min 255 (zrun d))).headD 1 = 0) := h255
    have hhead : ((d.drop (min 255 (zrun d))).headD 1) ≠ 0 := by
      rcases Nat.lt_or_ge (zrun d) 255 with hlt | hge
      · have heq : min 255 (zrun d) = zrun d := by omega
        rw [heq]
        exact headD_drop_zrun d
      · have h255' : min 255 (zrun d) = 255 := by omega
        intro h0
        exact hcontra ⟨h255', h0⟩
    have hm : 1 ≤ min 255 (litLen (d.drop (min 255 (zrun d)))) := by
      have := litLen_pos hne hhead
      omega
    have hlen : 0 < (d.drop (min 255 (zrun d))).length := by
      cases h : d.drop (min 255 (zrun d))
      · exact absurd h hne
      · simp [h]
    simp only [List.length_drop] at hlen ⊢
    omega

/-- Modelled from the spec: RunCodec decode (spec section 4.2). -/
def rcDecode : List Nat → List Nat
  | [] => []
  | z :: rest =>
    List.replicate z 0 ++
      match rest with
      | [] => []
      | m :: rest2 => rest2.take m ++ rcDecode (rest2.drop m)
termination_by l => l.length
decreasing_by
  simp only [List.length_drop, List.length_cons]
  omega

/-! ## Claim C1: packing validity (no overlap, in bounds)

The update loop of convert_font.py:67-69 raises the skyline at the keys in
the interval (x - w, x] instead of the covered interval [x, x + w), so the
heights of covered segments other than the start key are never raised and
heights left of the placement can even be lowered.  Concrete bitmap sets
below make the packer emit overlapping placements, and placements whose
bottom edge lies below the computed canvas height. -/

/-- C1: the packing invariant claimed by the spec fails on the code.  For
bitmaps [(1,2),(2,1),(2,1),(3,1)] the placements of the second (2,1) bitmap
and of the (1,2) bitmap overlap; for [(3,7),(6,2),(3,4),(4,1),(9,1),(6,2)]
one placement sticks out below the computed canvas height. -/
theorem C1_packing_invariant_fails :
    rectsOverlap ((pack [(1,2),(2,1),(2,1),(3,1)]).placements.getD 2 ((0,0),(0,0)))
        ((pack [(1,2),(2,1),(2,1),(3,1)]).placements.getD 3 ((0,0),(0,0))) = true ∧
    ((pack [(3,7),(6,2),(3,4),(4,1),(9,1),(6,2)]).placements.any
      (fun p => decide ((pack [(3,7),(6,2),(3,4),(4,1),(9,1),(6,2)]).height < p.2.2 + p.1.2))) = true := by
  decide

/-! ## Claim C3: missing fallback glyph must be a fatal error

In the source, fallback_index is a plain variable assigned inside the
try/except loop; when no priority codepoint is present it keeps the value
from the previous font, which is then silently emitted. -/

/-- C3: for a second font whose glyph table ([65, 66]) contains none of the
fallback priority codepoints, the build silently reuses the first font's
fallback index 0 instead of raising an error. -/
theorem C3_fallback_silently_reused :
    emitFallbacks [[0x3F, 65], [65, 66]] = [some 0, some 0] ∧
    (fallbackCps.all (fun c => decide (c ∉ ([65, 66] : List Nat)))) = true := by
  decide

/-- C5 counterexample: the packer does not process bitmaps tallest-first.
For input sizes [(8,20),(10,5)] the code processes (10,5) (height 5) before
(8,20) (height 20), because atlas_order sorts by the (width, height) pair. -/
theorem C5_not_sorted_by_height :
    atlasOrder [(8,20),(10,5)] = [(10,5),(8,20)] ∧
    ¬ List.Pairwise (fun a b : Nat × Nat => b.2 ≤ a.2) (atlasOrder [(8,20),(10,5)]) := by
  decide

/-- C6 counterexample: packing [(3,1),(3,1),(3,2),(5,1)], at the fourth
step (bitmap (3,1)) the code places at (0,2) although a feasible skyline
segment of height 1 exists, whose resulting top edge 1 + 1 is smaller than
the chosen 2 + 1: the code does not minimize placement y plus height. -/
theorem C6_not_min_top_edge :
    ((packRun [(3,1),(3,1),(3,2),(5,1)]).2.getD 3 ⟨[], (0,0), 0, (0,0)⟩).size = (3,1) ∧
    ((packRun [(3,1),(3,1),(3,2),(5,1)]).2.getD 3 ⟨[], (0,0), 0, (0,0)⟩).pos = (0, 2) ∧
    (((packRun [(3,1),(3,1),(3,2),(5,1)]).2.getD 3 ⟨[], (0,0), 0, (0,0)⟩).sky.any
      (fun p => decide (p.1 + 3 ≤ canvasW [(3,1),(3,1),(3,2),(5,1)]) &&
        decide (p.2 + 1 < 2 + 1))) = true := by
  decide

/-- C7 counterexample: on the glyph list [(5,1),(5,2)] (codepoint 5 twice,
payloads in processing order 1 then 2) sort_glyphs keeps (5,1), the
lexicographically least record, not the later record (5,2). -/
theorem C7_later_duplicate_not_kept :
    sort_glyphs ([(5, 1), (5, 2)] : List (Nat × Nat)) = [(5, 1)] ∧
    ((5, 2) : Nat × Nat) ∉ sort_glyphs ([(5, 1), (5, 2)] : List (Nat × Nat)) := by
  decide

/-- C8 counterexample: an MSDF glyph with codepoint 65 and no bounds gets
is_space = true although 65 is not a whitespace codepoint. -/
theorem C8_is_space_not_codepoint_based :
    (msdfGlyph 1 1 32 ⟨65, 1, none, none⟩).is_space = true ∧ isspace 65 = false := by
  decide

/-- C9 counterexample: an MSDF glyph with planeBounds present but
atlasBounds absent has plane_box (1,1,1,1) and atlas_box (0,0,0,0), so the
two boxes are not simultaneously zero or nonzero. -/
theorem C9_boxes_not_linked :
    ¬ (((msdfGlyph 1 1 32 ⟨65, 1, some ⟨1, 0, 1, 0⟩, none⟩).plane_box =
          ((0:Rat), (0:Rat), (0:Rat), (0:Rat))) ↔
       ((msdfGlyph 1 1 32 ⟨65, 1, some ⟨1, 0, 1, 0⟩, none⟩).atlas_box =
          ((0:Rat), (0:Rat), (0:Rat), (0:Rat)))) := by
  simp [msdfGlyph]

/-- C5 amended: atlas_order is the input permuted into decreasing
lexicographic (width, height) order (widest first, ties by height), not
decreasing height order. -/
theorem C5_amended (sizes : List (Nat × Nat)) :
    (atlasOrder sizes).Perm sizes ∧ List.Pairwise sizeGe (atlasOrder sizes) :=
  ⟨List.perm_insertionSort sizeGe sizes, List.sorted_insertionSort sizeGe sizes⟩

/-- C8 amended: the is_space flag of an MSDF glyph record is
`not(atlasBounds and planeBounds)` -- true exactly when a bound is missing,
regardless of the codepoint -- while a bitmap-font glyph record has
is_space set iff its codepoint is 0x20 or 0xA0. -/
theorem C8_amended :
    (∀ (mscale mbase h : Rat) (g : GlyphIn),
      (msdfGlyph mscale mbase h g).is_space = !(g.atlasBounds.isSome && g.planeBounds.isSome)) ∧
    (∀ (mapping : List Nat) (cellW cellH : Nat) (adv cw : Rat) (cols rows : Nat),
      ∀ r ∈ bitmapGlyphs mapping cellW cellH adv cw cols rows, r.is_space = isspace r.cp) := by
  constructor
  · intro mscale mbase h g
    rfl
  · intro mapping cellW cellH adv cw cols rows r hr
    unfold bitmapGlyphs at hr
    rcases List.mem_map.mp hr with ⟨g, _, rfl⟩
    rfl

/-- Witness for C8 amended at concrete glyphs. -/
theorem C8_amended_witness :
    (msdfGlyph 1 1 32 ⟨65, 1, none, none⟩).is_space
      = !((none : Option Bounds).isSome && (none : Option Bounds).isSome) ∧
    ((bitmapGlyphs [65] 8 8 1 1 1 1).get ⟨0, by decide⟩).is_space
      = isspace ((bitmapGlyphs [65] 8 8 1 1 1 1).get ⟨0, by decide⟩).cp :=
  ⟨C8_amended.1 1 1 32 ⟨65, 1, none, none⟩,
   C8_amended.2 [65] 8 8 1 1 1 1 _ (List.get_mem (bitmapGlyphs [65] 8 8 1 1 1 1) 0 (by decide))⟩

/-- C9 amended: an absent planeBounds yields an all-zero plane_box and an
absent atlasBounds yields an all-zero atlas_box (hence when both bounds are
absent both boxes are zero); the two boxes are linked in no other way. -/
theorem C9_amended (mscale mbase h : Rat) (g : GlyphIn) :
    (g.planeBounds = none → (msdfGlyph mscale mbase h g).plane_box = (0, 0, 0, 0)) ∧
    (g.atlasBounds = none → (msdfGlyph mscale mbase h g).atlas_box = (0, 0, 0, 0)) := by
  constructor
  · intro hn
    simp [msdfGlyph, hn]
  · intro hn
    simp [msdfGlyph, hn]

/-- Witness for C9 amended at a glyph with both bounds absent. -/
theorem C9_amended_witness :
    (msdfGlyph 1 1 32 ⟨65, 1, none, none⟩).plane_box = (0, 0, 0, 0) ∧
    (msdfGlyph 1 1 32 ⟨65, 1, none, none⟩).atlas_box = (0, 0, 0, 0) :=
  ⟨(C9_amended 1 1 32 ⟨65, 1, none, none⟩).1 rfl,
   (C9_amended 1 1 32 ⟨65, 1, none, none⟩).2 rfl⟩

theorem tripLt_irrefl (a : Nat × Nat × Nat) : tripLt a a = false := by
  simp [tripLt]

theorem tripLt_transHelp {a b c : Nat × Nat × Nat} (h1 : tripLt a b = true)
    (h2 : tripLt b c = true) : tripLt a c = true := by
  simp only [tripLt, Bool.or_eq_true, Bool.and_eq_true, decide_eq_true_eq, beq_iff_eq] at *
  omega

theorem tripLt_leHelp {a b c : Nat × Nat × Nat} (h1 : tripLt b a = false)
    (h2 : tripLt b c = true) : tripLt a c = true := by
  simp only [tripLt, Bool.or_eq_true, Bool.and_eq_true, Bool.or_eq_false_iff,
    Bool.and_eq_false_iff, decide_eq_true_eq, decide_eq_false_iff_not, beq_iff_eq,
    beq_eq_false_iff_ne] at *
  omega

theorem foldlMin_mem (l : List (Nat × Nat × Nat)) :
    ∀ a : Nat × Nat × Nat,
      l.foldl (fun c q => if tripLt q c then q else c) a = a ∨
      l.foldl (fun c q => if tripLt q c then q else c) a ∈ l := by
  induction l with
  | nil => intro a; exact Or.inl rfl
  | cons b t ih =>
    intro a
    simp only [List.foldl_cons]
    rcases ih (if tripLt b a then b else a) with h | h
    · rw [h]
      by_cases hba : tripLt b a = true
      · rw [if_pos hba]
        exact Or.inr (List.mem_cons_self b t)
      · rw [if_neg hba]
        exact Or.inl rfl
    · exact Or.inr (List.mem_cons_of_mem b h)

theorem foldlMin_not_lt (l : List (Nat × Nat × Nat)) :
    ∀ a q : Nat × Nat × Nat, (q = a ∨ q ∈ l) →
      tripLt q (l.foldl (fun c q => if tripLt q c then q else c) a) = false := by
  induction l with
  | nil =>
    intro a q hq
    rcases hq with rfl | h
    · simpa using tripLt_irrefl q
    · cases h
  | cons b t ih =>
    intro a q hq
    simp only [List.foldl_cons]
    by_cases hba : tripLt b a = true
    · -- seed becomes b
      rw [if_pos hba]
      have hb : tripLt b (t.foldl (fun c q => if tripLt q c then q else c) b) = false :=
        ih b b (Or.inl rfl)
      rcases hq with rfl | hq2
      · -- q = a: tripLt b a holds, so tripLt a r would give tripLt b r
        by_contra hq4
        have har : tripLt q (t.foldl (fun c q => if tripLt q c then q else c) b) = true := by
          revert hq4
          cases tripLt q (List.foldl (fun c q => if tripLt q c then q else c) b t) <;> simp
        have hke := tripLt_transHelp hba har
        rw [hke] at hb
        exact Bool.noConfusion hb
      · rcases List.mem_cons.mp hq2 with rfl | hq3
        · exact hb
        · exact ih b q (Or.inr hq3)
    · -- seed stays a
      rw [if_neg hba]
      have hba' : tripLt b a = false := by
        revert hba
        cases tripLt b a <;> simp
      have ha : tripLt a (t.foldl (fun c q => if tripLt q c then q else c) a) = false :=
        ih a a (Or.inl rfl)
      rcases hq with rfl | hq2
      · exact ha
      · rcases List.mem_cons.mp hq2 with rfl | hq3
        · -- q = b, seed a: if tripLt b r then tripLt a r, contradiction
          by_contra hq4
          have hbr : tripLt q (t.foldl (fun c q => if tripLt q c then q else c) a) = true := by
            revert hq4
            cases tripLt q (List.foldl (fun c q => if tripLt q c then q else c) a t) <;> simp
          have hke := tripLt_leHelp hba' hbr
          rw [hke] at ha
          exact Bool.noConfusion ha
        · exact ih a q (Or.inr hq3)

/-- C6 amended: among the skyline keys x0 that fit the bitmap width
(`x0 + w <= W`) the packer picks a candidate minimizing
`coverMax(x0) + h`, the maximum skyline height over the covered key range
plus the bitmap height (ties: smallest x0 by the lexicographic minimum);
the position is the chosen key and its own stored height, which can lie
strictly below coverMax. -/
theorem C6_amended (W : Nat) (sky : Sky) (w h : Nat)
    (hne : candidates W sky w h ≠ []) :
    placeStep W sky w h ∈ candidates W sky w h ∧
    (∃ p, p ∈ sky ∧ p.1 + w ≤ W ∧
      placeStep W sky w h = (coverMax sky p.1 w + h, p.1, p.2)) ∧
    (∀ q ∈ candidates W sky w h, (placeStep W sky w h).1 ≤ q.1) := by
  obtain ⟨a, rest, hc⟩ := List.exists_cons_of_ne_nil hne
  have hps : placeStep W sky w h
      = rest.foldl (fun c q => if tripLt q c then q else c) a := by
    unfold placeStep
    rw [hc]
    rfl
  have hmem : placeStep W sky w h ∈ candidates W sky w h := by
    rw [hps, hc]
    rcases foldlMin_mem rest a with h1 | h1
    · rw [h1]; exact List.mem_cons_self a rest
    · exact List.mem_cons_of_mem a h1
  refine ⟨hmem, ?_, ?_⟩
  · unfold candidates at hmem
    rcases List.mem_map.mp hmem with ⟨p, hp, heq⟩
    have hp' := List.mem_filter.mp hp
    refine ⟨p, hp'.1, ?_, heq.symm⟩
    simpa using hp'.2
  · intro q hq
    rw [hps]
    set r := rest.foldl (fun c q => if tripLt q c then q else c) a with hrdef
    have hq' : q = a ∨ q ∈ rest := by
      rw [hc] at hq
      exact List.mem_cons.mp hq
    have hnlt := foldlMin_not_lt rest a q hq'
    rw [← hrdef] at hnlt
    simp only [tripLt, Bool.or_eq_false_iff, Bool.and_eq_false_iff,
      decide_eq_false_iff_not, beq_eq_false_iff_ne] at hnlt
    omega

/-- Witness for C6 amended on a one-segment skyline. -/
theorem C6_amended_witness :
    placeStep 4 [(0,0)] 2 1 ∈ candidates 4 [(0,0)] 2 1 ∧
    (∃ p, p ∈ ([(0,0)] : Sky) ∧ p.1 + 2 ≤ 4 ∧
      placeStep 4 [(0,0)] 2 1 = (coverMax [(0,0)] p.1 2 + 1, p.1, p.2)) ∧
    (∀ q ∈ candidates 4 [(0,0)] 2 1, (placeStep 4 [(0,0)] 2 1).1 ≤ q.1) :=
  C6_amended 4 [(0,0)] 2 1 (by decide)

theorem glyphLe_refl {β : Type} [LinearOrder β] (a : Nat × β) : glyphLe a a :=
  Or.inr ⟨rfl, le_refl a.2⟩

theorem glyphLe_key_le {β : Type} [LinearOrder β] {a b : Nat × β} (h : glyphLe a b) :
    a.1 ≤ b.1 := by
  rcases h with h | ⟨h, _⟩
  · exact Nat.le_of_lt h
  · exact Nat.le_of_eq h

theorem uniqGlyphs_subset {β : Type} (s : List (Nat × β)) :
    ∀ prev, ∀ g ∈ uniqGlyphs prev s, g ∈ s := by
  induction s with
  | nil => intro prev g hg; simp [uniqGlyphs] at hg
  | cons a t ih =>
    intro prev g hg
    simp only [uniqGlyphs] at hg
    by_cases ha : a.1 ≠ prev
    · rw [if_pos ha] at hg
      rcases List.mem_cons.mp hg with rfl | h2
      · exact List.mem_cons_self _ _
      · exact List.mem_cons_of_mem a (ih a.1 g h2)
    · rw [if_neg ha] at hg
      exact List.mem_cons_of_mem a (ih a.1 g hg)

theorem uniqGlyphs_gt_prev {β : Type} (s : List (Nat × β)) :
    ∀ prev, (∀ b ∈ s, prev ≤ b.1) →
      List.Pairwise (fun a b : Nat × β => a.1 ≤ b.1) s →
      ∀ g ∈ uniqGlyphs prev s, prev < g.1 := by
  induction s with
  | nil => intro prev _ _ g hg; simp [uniqGlyphs] at hg
  | cons a t ih =>
    intro prev hmono hpw g hg
    have hpw' := List.pairwise_cons.mp hpw
    have hpa : prev ≤ a.1 := hmono a (List.mem_cons_self a t)
    simp only [uniqGlyphs] at hg
    by_cases ha : a.1 ≠ prev
    · rw [if_pos ha] at hg
      rcases List.mem_cons.mp hg with rfl | h2
      · omega
      · have := ih a.1 hpw'.1 hpw'.2 g h2
        omega
    · rw [if_neg ha] at hg
      push_neg at ha
      have := ih a.1 hpw'.1 hpw'.2 g hg
      omega

theorem uniqGlyphs_strict {β : Type} (s : List (Nat × β)) :
    ∀ prev, List.Pairwise (fun a b : Nat × β => a.1 ≤ b.1) s →
      List.Pairwise (fun a b : Nat × β => a.1 < b.1) (uniqGlyphs prev s) := by
  induction s with
  | nil => intro prev _; simp [uniqGlyphs]
  | cons a t ih =>
    intro prev hpw
    have hpw' := List.pairwise_cons.mp hpw
    simp only [uniqGlyphs]
    by_cases ha : a.1 ≠ prev
    · rw [if_pos ha]
      refine List.pairwise_cons.mpr ⟨?_, ih a.1 hpw'.2⟩
      intro g hg
      exact uniqGlyphs_gt_prev t a.1 hpw'.1 hpw'.2 g hg
    · rw [if_neg ha]
      exact ih a.1 hpw'.2

theorem uniqGlyphs_covers {β : Type} (s : List (Nat × β)) :
    ∀ prev, ∀ g ∈ s, g.1 ≠ prev → ∃ g', g' ∈ uniqGlyphs prev s ∧ g'.1 = g.1 := by
  induction s with
  | nil => intro prev g hg; cases hg
  | cons a t ih =>
    intro prev g hg hne
    simp only [uniqGlyphs]
    by_cases ha : a.1 ≠ prev
    · rw [if_pos ha]
      rcases List.mem_cons.mp hg with rfl | h2
      · exact ⟨g, List.mem_cons_self g _, rfl⟩
      · by_cases hga : g.1 = a.1
        · exact ⟨a, List.mem_cons_self a _, hga.symm⟩
        · obtain ⟨g', h1, h2'⟩ := ih a.1 g h2 hga
          exact ⟨g', List.mem_cons_of_mem a h1, h2'⟩
    · rw [if_neg ha]
      push_neg at ha
      rcases List.mem_cons.mp hg with rfl | h2
      · exact absurd ha hne
      · exact ih a.1 g h2 (by rw [ha]; exact hne)

theorem uniqGlyphs_least {β : Type} [LinearOrder β] (s : List (Nat × β)) :
    ∀ prev, List.Pairwise glyphLe s →
      ∀ g ∈ uniqGlyphs prev s, ∀ g' ∈ s, g'.1 = g.1 → glyphLe g g' := by
  induction s with
  | nil => intro prev _ g hg; simp [uniqGlyphs] at hg
  | cons a t ih =>
    intro prev hpw g hg g' hg' hcp
    have hpw' := List.pairwise_cons.mp hpw
    have hkeymono : ∀ b ∈ t, a.1 ≤ b.1 := fun b hb => glyphLe_key_le (hpw'.1 b hb)
    have hkeyle : List.Pairwise (fun a b : Nat × β => a.1 ≤ b.1) t :=
      hpw'.2.imp glyphLe_key_le
    simp only [uniqGlyphs] at hg
    by_cases ha : a.1 ≠ prev
    · rw [if_pos ha] at hg
      rcases List.mem_cons.mp hg with rfl | h2
      · rcases List.mem_cons.mp hg' with rfl | h3
        · exact glyphLe_refl _
        · exact hpw'.1 g' h3
      · have hgt : a.1 < g.1 := uniqGlyphs_gt_prev t a.1 hkeymono hkeyle g h2
        rcases List.mem_cons.mp hg' with rfl | h3
        · exact absurd hcp (by omega)
        · exact ih a.1 hpw'.2 g h2 g' h3 hcp
    · rw [if_neg ha] at hg
      have hgt : a.1 < g.1 := uniqGlyphs_gt_prev t a.1 hkeymono hkeyle g hg
      rcases List.mem_cons.mp hg' with rfl | h3
      · exact absurd hcp (by omega)
      · exact ih a.1 hpw'.2 g hg g' h3 hcp

/-- C7 amended: after sort_glyphs the glyph list is strictly increasing by
codepoint; every output record is an input record; records with codepoint 0
are removed entirely; every nonzero input codepoint keeps a record; and
among records sharing a codepoint the kept one is the least in full
lexicographic record order (not the later one in processing order). -/
theorem C7_amended {β : Type} [LinearOrder β] (gs : List (Nat × β)) :
    List.Pairwise (fun a b : Nat × β => a.1 < b.1) (sort_glyphs gs) ∧
    (∀ g ∈ sort_glyphs gs, g ∈ gs) ∧
    (∀ g ∈ sort_glyphs gs, g.1 ≠ 0) ∧
    (∀ g ∈ gs, g.1 ≠ 0 → ∃ g', g' ∈ sort_glyphs gs ∧ g'.1 = g.1) ∧
    (∀ g ∈ sort_glyphs gs, ∀ g' ∈ gs, g'.1 = g.1 → glyphLe g g') := by
  have hsorted : List.Pairwise glyphLe
      (List.insertionSort glyphLe (List.insertionSort glyphLe gs)) :=
    List.sorted_insertionSort glyphLe _
  have hperm : (List.insertionSort glyphLe (List.insertionSort glyphLe gs)).Perm gs :=
    (List.perm_insertionSort glyphLe _).trans (List.perm_insertionSort glyphLe gs)
  have hkey : List.Pairwise (fun a b : Nat × β => a.1 ≤ b.1)
      (List.insertionSort glyphLe (List.insertionSort glyphLe gs)) :=
    hsorted.imp glyphLe_key_le
  unfold sort_glyphs
  refine ⟨?_, ?_, ?_, ?_, ?_⟩
  · exact uniqGlyphs_strict _ 0 hkey
  · intro g hg
    exact hperm.subset (uniqGlyphs_subset _ 0 g hg)
  · intro g hg
    have := uniqGlyphs_gt_prev _ 0 (fun b _ => Nat.zero_le b.1) hkey g hg
    omega
  · intro g hg hne
    exact uniqGlyphs_covers _ 0 g (hperm.mem_iff.mpr hg) hne
  · intro g hg g' hg' hcp
    exact uniqGlyphs_least _ 0 hsorted g hg g' (hperm.mem_iff.mpr hg') hcp

/-- Witness for C7 amended: on [(5,1),(5,2),(0,9)] the kept record (5,1)
precedes the later duplicate (5,2) lexicographically. -/
theorem C7_amended_witness :
    ((5, 1) : Nat × Nat) ∈ sort_glyphs ([(5, 1), (5, 2), (0, 9)] : List (Nat × Nat)) ∧
    glyphLe ((5, 1) : Nat × Nat) ((5, 2) : Nat × Nat) :=
  ⟨by decide,
   (C7_amended ([(5, 1), (5, 2), (0, 9)] : List (Nat × Nat))).2.2.2.2
     (5, 1) (by decide) (5, 2) (by decide) rfl⟩

/-- C10: the duplicate filter of sort_glyphs initializes prev to 0, so a
record with codepoint 0 is always dropped; for every input list that
contains a codepoint-0 glyph, no output record has codepoint 0. -/
theorem C10_codepoint_zero_dropped {β : Type} [LinearOrder β] (gs : List (Nat × β))
    (hzero : ∃ g ∈ gs, g.1 = 0) :
    ∀ g ∈ sort_glyphs gs, g.1 ≠ 0 := by
  clear hzero
  unfold sort_glyphs
  intro g hg
  have hkey : List.Pairwise (fun a b : Nat × β => a.1 ≤ b.1)
      (List.insertionSort glyphLe (List.insertionSort glyphLe gs)) :=
    (List.sorted_insertionSort glyphLe _).imp glyphLe_key_le
  have := uniqGlyphs_gt_prev _ 0 (fun b _ => Nat.zero_le b.1) hkey g hg
  omega

/-- Witness for C10 on the list [(0,5),(3,1)]: the surviving record keeps a
nonzero codepoint. -/
theorem C10_witness :
    (((3, 1) : Nat × Nat)).1 ≠ 0 :=
  C10_codepoint_zero_dropped ([(0, 5), (3, 1)] : List (Nat × Nat))
    ⟨(0, 5), by decide, rfl⟩ (3, 1) (by decide)

/-! ### Correctness of npot (claim C4)

The loop invariant: entering an iteration with shift s, the top min(s, L)
bits of x - 1 are all ones, where L = size (x - 1) stays constant; the
shift doubles each iteration, so after at most log2(L) + 1 iterations x - 1
is all ones and x = 2^L, at which point `x & (x - 1) == 0` stops the loop.
The fuel x chosen in npot is therefore never exhausted. -/

theorem two_pow_and_pred (k : Nat) : 2 ^ k &&& (2 ^ k - 1) = 0 := by
  apply Nat.eq_of_testBit_eq
  intro i
  rw [Nat.testBit_and, Nat.testBit_two_pow, Nat.testBit_two_pow_sub_one, Nat.zero_testBit]
  by_cases h : k = i
  · subst h
    simp
  · simp [h]

theorem pow2_of_and_pred_eq_zero {x : Nat} (hx : 1 ≤ x) (h : x &&& (x - 1) = 0) :
    x = 2 ^ (Nat.size x - 1) := by
  set k := Nat.size x - 1 with hk
  have hsz : Nat.size x = k + 1 := by
    have h0 : Nat.size x ≠ 0 := by
      intro h0
      rw [Nat.size_eq_zero] at h0
      omega
    omega
  have hub : x < 2 ^ (k + 1) := by
    have := Nat.lt_size_self x
    rwa [hsz] at this
  have hlb : 2 ^ k ≤ x := by
    by_contra hlt
    push_neg at hlt
    have := Nat.size_le.mpr hlt
    omega
  have hps : 2 ^ (k + 1) = 2 ^ k * 2 := by ring
  by_contra hne
  have hr1 : 1 ≤ x - 2 ^ k := by
    rcases Nat.eq_or_lt_of_le hlb with he | hl
    · exact absurd he.symm hne
    · omega
  have hxbit : Nat.testBit x k = true := by
    have hx' : x = 2 ^ k + (x - 2 ^ k) := by omega
    rw [hx', Nat.testBit_two_pow_add_eq,
      Nat.testBit_lt_two_pow (x := x - 2 ^ k) (by omega)]
    rfl
  have hx1bit : Nat.testBit (x - 1) k = true := by
    have hx' : x - 1 = 2 ^ k + (x - 2 ^ k - 1) := by omega
    rw [hx', Nat.testBit_two_pow_add_eq,
      Nat.testBit_lt_two_pow (x := x - 2 ^ k - 1) (by omega)]
    rfl
  have hbit : Nat.testBit (x &&& (x - 1)) k = true := by
    rw [Nat.testBit_and, hxbit, hx1bit]
    rfl
  rw [h, Nat.zero_testBit] at hbit
  exact Bool.noConfusion hbit

theorem size_two_pow_sub_one (k : Nat) : Nat.size (2 ^ k - 1) = k := by
  rcases Nat.eq_zero_or_pos k with rfl | hk
  · simp [Nat.size_eq_zero]
  · have h1 : 0 < 2 ^ k := pow_pos (by norm_num) k
    have hle : Nat.size (2 ^ k - 1) ≤ k := Nat.size_le.mpr (by omega)
    have hge : ¬ Nat.size (2 ^ k - 1) ≤ k - 1 := by
      intro hcon
      have hlt := Nat.size_le.mp hcon
      have hpk : 2 ^ k = 2 ^ (k - 1) * 2 := by
        conv_lhs => rw [show k = (k - 1) + 1 by omega]
        ring
      omega
    omega

theorem testBit_size_pred {y : Nat} (hy : 1 ≤ y) :
    Nat.testBit y (Nat.size y - 1) = true := by
  set k := Nat.size y - 1 with hk
  have hsz : Nat.size y = k + 1 := by
    have h0 : Nat.size y ≠ 0 := by
      intro h0
      rw [Nat.size_eq_zero] at h0
      omega
    omega
  have hub : y < 2 ^ (k + 1) := by
    have := Nat.lt_size_self y
    rwa [hsz] at this
  have hlb : 2 ^ k ≤ y := by
    by_contra hlt
    push_neg at hlt
    have := Nat.size_le.mpr hlt
    omega
  have hps : 2 ^ (k + 1) = 2 ^ k * 2 := by ring
  have hy' : y = 2 ^ k + (y - 2 ^ k) := by omega
  rw [hy', Nat.testBit_two_pow_add_eq,
    Nat.testBit_lt_two_pow (x := y - 2 ^ k) (by omega)]
  rfl

theorem le_or_left (a b : Nat) : a ≤ a ||| b := by
  have h : a &&& (a ||| b) = a := by
    apply Nat.eq_of_testBit_eq
    intro i
    rw [Nat.testBit_and, Nat.testBit_or]
    cases Nat.testBit a i <;> cases Nat.testBit b i <;> rfl
  calc a = a &&& (a ||| b) := h.symm
    _ ≤ a ||| b := Nat.and_le_right

theorem size_or_shiftRight {y : Nat} (s : Nat) (hy : 1 ≤ y) :
    Nat.size (y ||| y >>> s) = Nat.size y := by
  apply le_antisymm
  · apply Nat.size_le.mpr
    apply Nat.or_lt_two_pow (Nat.lt_size_self y)
    calc y >>> s = y / 2 ^ s := Nat.shiftRight_eq_div_pow y s
      _ ≤ y := Nat.div_le_self _ _
      _ < 2 ^ Nat.size y := Nat.lt_size_self y
  · exact Nat.size_le_size (le_or_left y (y >>> s))

theorem topOnes_step {y s : Nat} (hy : 1 ≤ y)
    (h : ∀ i, i < Nat.size y → Nat.size y ≤ i + s → Nat.testBit y i = true) :
    ∀ i, i < Nat.size (y ||| y >>> s) → Nat.size (y ||| y >>> s) ≤ i + 2 * s →
      Nat.testBit (y ||| y >>> s) i = true := by
  intro i h1 h2
  rw [size_or_shiftRight s hy] at h1 h2
  rw [Nat.testBit_or]
  by_cases hcase : Nat.size y ≤ i + s
  · rw [h i h1 hcase]
    rfl
  · push_neg at hcase
    have hbit : Nat.testBit y (s + i) = true := by
      apply h
      · omega
      · omega
    rw [Nat.testBit_shiftRight, hbit]
    simp

theorem eq_two_pow_sub_one_of_topOnes {y s : Nat}
    (hle : Nat.size y ≤ s)
    (h : ∀ i, i < Nat.size y → Nat.size y ≤ i + s → Nat.testBit y i = true) :
    y = 2 ^ Nat.size y - 1 := by
  apply Nat.eq_of_testBit_eq
  intro i
  rw [Nat.testBit_two_pow_sub_one]
  by_cases hi : i < Nat.size y
  · rw [h i hi (by omega)]
    exact (decide_eq_true hi).symm
  · push_neg at hi
    have hfalse : Nat.testBit y i = false :=
      Nat.testBit_lt_two_pow
        (lt_of_lt_of_le (Nat.lt_size_self y) (Nat.pow_le_pow_right (by norm_num) hi))
    rw [hfalse]
    exact (decide_eq_false (by omega)).symm

theorem npotGo_eq : ∀ (fuel s x : Nat), 1 ≤ x → 1 ≤ s →
    (∀ i, i < Nat.size (x - 1) → Nat.size (x - 1) ≤ i + s → Nat.testBit (x - 1) i = true) →
    Nat.size (x - 1) ≤ s * 2 ^ fuel →
    npotGo fuel s x = 2 ^ Nat.size (x - 1) := by
  intro fuel
  induction fuel with
  | zero =>
    intro s x hx hs htop hsz
    simp only [npotGo]
    have hall : x - 1 = 2 ^ Nat.size (x - 1) - 1 :=
      eq_two_pow_sub_one_of_topOnes (by simpa using hsz) htop
    have h1 : 0 < 2 ^ Nat.size (x - 1) := pow_pos (by norm_num) _
    omega
  | succ fuel ih =>
    intro s x hx hs htop hsz
    simp only [npotGo]
    by_cases hcond : x &&& (x - 1) = 0
    · rw [if_pos hcond]
      have hpow := pow2_of_and_pred_eq_zero hx hcond
      have hsub : x - 1 = 2 ^ (Nat.size x - 1) - 1 := by omega
      rw [hsub, size_two_pow_sub_one]
      exact hpow
    · rw [if_neg hcond]
      have hy : 1 ≤ x - 1 := by
        by_contra h0
        push_neg at h0
        have hx1 : x = 1 := by omega
        rw [hx1] at hcond
        exact hcond (Nat.and_zero 1)
      have hshift : s <<< 1 = 2 * s := by
        rw [Nat.shiftLeft_eq, pow_one]
        omega
      have hsize : Nat.size ((x - 1) ||| (x - 1) >>> s) = Nat.size (x - 1) :=
        size_or_shiftRight s hy
      have hcancel : (((x - 1) ||| (x - 1) >>> s) + 1) - 1 = (x - 1) ||| (x - 1) >>> s := by
        omega
      rw [ih (s <<< 1) (((x - 1) ||| (x - 1) >>> s) + 1) (by omega) (by omega)
        (by rw [hcancel, hshift]; exact topOnes_step hy htop)
        (by
          rw [hcancel, hsize, hshift]
          have hp : s * 2 ^ (fuel + 1) = 2 * s * 2 ^ fuel := by
            rw [Nat.pow_succ]
            ring
          omega)]
      rw [hcancel, hsize]

theorem npot_eq {x : Nat} (hx : 1 ≤ x) : npot x = 2 ^ Nat.size (x - 1) := by
  unfold npot
  apply npotGo_eq x 1 x hx (le_refl 1)
  · intro i h1 h2
    have hi : i = Nat.size (x - 1) - 1 := by omega
    subst hi
    apply testBit_size_pred
    by_contra h0
    push_neg at h0
    have hz : x - 1 = 0 := by omega
    rw [hz] at h1
    rw [show Nat.size 0 = 0 from Nat.size_eq_zero.mpr rfl] at h1
    omega
  · have h1 : Nat.size (x - 1) ≤ x - 1 + 1 := by
      rcases Nat.eq_zero_or_pos (x - 1) with h0 | h0
      · rw [h0, show Nat.size 0 = 0 from Nat.size_eq_zero.mpr rfl]
        omega
      · have := Nat.size_le.mpr (Nat.lt_two_pow (x - 1))
        omega
    have h2 : x < 2 ^ x := Nat.lt_two_pow x
    omega

theorem maxWidth_perm {l l' : List (Nat × Nat)} (h : l.Perm l') :
    maxWidth l = maxWidth l' := by
  unfold maxWidth
  induction h with
  | nil => rfl
  | cons x _ ih => simp only [List.foldr_cons, ih]
  | swap x y l =>
    simp only [List.foldr_cons]
    omega
  | trans _ _ ih1 ih2 => exact ih1.trans ih2

theorem maxWidth_le {l : List (Nat × Nat)} {a : Nat} (h : ∀ b ∈ l, b.1 ≤ a) :
    maxWidth l ≤ a := by
  unfold maxWidth
  induction l with
  | nil => simp
  | cons b t ih =>
    simp only [List.foldr_cons]
    have hb := h b (List.mem_cons_self _ _)
    have ht := ih (fun c hc => h c (List.mem_cons_of_mem b hc))
    unfold maxWidth at ht
    omega

theorem head_width_eq {sizes : List (Nat × Nat)} (hne : sizes ≠ []) :
    ((atlasOrder sizes).headD (0, 0)).1 = maxWidth sizes := by
  have hperm : (atlasOrder sizes).Perm sizes := List.perm_insertionSort sizeGe sizes
  have hsorted : List.Pairwise sizeGe (atlasOrder sizes) :=
    List.sorted_insertionSort sizeGe sizes
  have hne' : atlasOrder sizes ≠ [] := by
    intro h0
    rw [h0] at hperm
    exact hne hperm.symm.eq_nil
  obtain ⟨a, t, hat⟩ := List.exists_cons_of_ne_nil hne'
  rw [← maxWidth_perm hperm, hat]
  simp only [List.headD_cons]
  rw [hat] at hsorted
  have hall : ∀ b ∈ t, b.1 ≤ a.1 := by
    intro b hb
    have hge := (List.pairwise_cons.mp hsorted).1 b hb
    unfold sizeGe at hge
    omega
  have hmax := maxWidth_le hall
  unfold maxWidth at *
  simp only [List.foldr_cons]
  omega

/-- C4: npot x is the least power of two that is at least x (for positive
x), the canvas width is npot of the widest bitmap width, and the canvas
height is npot of the maximum final skyline height. -/
theorem C4_npot_least_pow2_and_canvas :
    (∀ x : Nat, 0 < x →
      x ≤ npot x ∧ (∃ k, npot x = 2 ^ k) ∧
      ∀ p : Nat, (∃ k, p = 2 ^ k) → x ≤ p → npot x ≤ p) ∧
    (∀ sizes : List (Nat × Nat), sizes ≠ [] →
      (pack sizes).width = npot (maxWidth sizes) ∧
      (pack sizes).height = npot (maxVal (packRun sizes).1)) := by
  constructor
  · intro x hx
    have he := npot_eq hx
    refine ⟨?_, ⟨_, he⟩, ?_⟩
    · rw [he]
      have := Nat.lt_size_self (x - 1)
      omega
    · rintro p ⟨k, rfl⟩ hxp
      rw [he]
      apply Nat.pow_le_pow_right (by norm_num)
      apply Nat.size_le.mpr
      omega
  · intro sizes hne
    constructor
    · show canvasW sizes = npot (maxWidth sizes)
      unfold canvasW
      rw [head_width_eq hne]
    · rfl

/-- Witness for C4 at x = 5 and a singleton bitmap list. -/
theorem C4_witness :
    (5 ≤ npot 5 ∧ (∃ k, npot 5 = 2 ^ k) ∧
      ∀ p : Nat, (∃ k, p = 2 ^ k) → 5 ≤ p → npot 5 ≤ p) ∧
    ((pack [(3, 2)]).width = npot (maxWidth [(3, 2)]) ∧
      (pack [(3, 2)]).height = npot (maxVal (packRun [(3, 2)]).1)) :=
  ⟨C4_npot_least_pow2_and_canvas.1 5 (by decide),
   C4_npot_least_pow2_and_canvas.2 [(3, 2)] (by decide)⟩

/-! ### Round trip of the spec-modelled RunCodec (claim C2) -/

theorem take_zrun : ∀ (d : List Nat) (n : Nat), n ≤ zrun d →
    d.take n = List.replicate n 0 := by
  intro d
  induction d with
  | nil =>
    intro n hn
    simp only [zrun] at hn
    have : n = 0 := by omega
    subst this
    rfl
  | cons b bs ih =>
    intro n hn
    by_cases hb : b = 0
    · subst hb
      cases n with
      | zero => rfl
      | succ m =>
        have hm : m ≤ zrun bs := by
          simp [zrun] at hn
          omega
        simp only [List.take_succ_cons, List.replicate_succ]
        rw [ih m hm]
    · rw [zrun, if_neg hb] at hn
      have : n = 0 := by omega
      subst this
      rfl

theorem litLen_le_length : ∀ l : List Nat, litLen l ≤ l.length := by
  intro l
  induction l with
  | nil => simp [litLen]
  | cons b bs ih =>
    by_cases hb : b = 0
    · subst hb
      cases bs with
      | nil => simp [litLen]
      | cons c cs =>
        by_cases hc : c = 0
        · simp [litLen, hc]
        · have h2 : litLen (0 :: c :: cs) = litLen (c :: cs) + 1 := by
            simp [litLen, hc]
          rw [h2]
          simp only [List.length_cons] at ih ⊢
          omega
    · have h2 : litLen (b :: bs) = litLen bs + 1 := by
        simp [litLen, hb]
      rw [h2]
      simp only [List.length_cons]
      omega

theorem rcDecode_nil : rcDecode [] = [] := by
  simp [rcDecode]

theorem rcDecode_singleton (z : Nat) : rcDecode [z] = List.replicate z 0 := by
  simp [rcDecode]

theorem rcDecode_cons_cons (z m : Nat) (rest2 : List Nat) :
    rcDecode (z :: m :: rest2)
      = List.replicate z 0 ++ (rest2.take m ++ rcDecode (rest2.drop m)) := by
  simp [rcDecode]

theorem rcEncode_branchA {d : List Nat}
    (h : min 255 (zrun d) = 255 ∧ (d.drop (min 255 (zrun d))).headD 1 = 0) :
    rcEncode d = min 255 (zrun d) :: 0 :: rcEncode (d.drop (min 255 (zrun d))) := by
  conv_lhs => rw [rcEncode]
  rw [dif_pos h, h.1]

theorem rcEncode_branchB {d : List Nat}
    (hA : ¬ (min 255 (zrun d) = 255 ∧ (d.drop (min 255 (zrun d))).headD 1 = 0))
    (hB : d.drop (min 255 (zrun d)) = []) :
    rcEncode d = [min 255 (zrun d)] := by
  conv_lhs => rw [rcEncode]
  rw [dif_neg hA, dif_pos hB]

theorem rcEncode_branchC1 {d : List Nat}
    (hA : ¬ (min 255 (zrun d) = 255 ∧ (d.drop (min 255 (zrun d))).headD 1 = 0))
    (hB : ¬ d.drop (min 255 (zrun d)) = [])
    (hC : (d.drop (min 255 (zrun d))).drop
        (min 255 (litLen (d.drop (min 255 (zrun d))))) = []) :
    rcEncode d = min 255 (zrun d) :: min 255 (litLen (d.drop (min 255 (zrun d)))) ::
      (d.drop (min 255 (zrun d))).take (min 255 (litLen (d.drop (min 255 (zrun d))))) := by
  conv_lhs => rw [rcEncode]
  rw [dif_neg hA, dif_neg hB, if_pos hC]

theorem rcEncode_branchC2 {d : List Nat}
    (hA : ¬ (min 255 (zrun d) = 255 ∧ (d.drop (min 255 (zrun d))).headD 1 = 0))
    (hB : ¬ d.drop (min 255 (zrun d)) = [])
    (hC : ¬ (d.drop (min 255 (zrun d))).drop
        (min 255 (litLen (d.drop (min 255 (zrun d))))) = []) :
    rcEncode d = min 255 (zrun d) :: min 255 (litLen (d.drop (min 255 (zrun d)))) ::
      ((d.drop (min 255 (zrun d))).take (min 255 (litLen (d.drop (min 255 (zrun d))))) ++
        rcEncode ((d.drop (min 255 (zrun d))).drop
          (min 255 (litLen (d.drop (min 255 (zrun d))))))) := by
  conv_lhs => rw [rcEncode]
  rw [dif_neg hA, dif_neg hB, if_neg hC]

theorem rc_roundtrip_aux : ∀ (n : Nat) (d : List Nat), d.length ≤ n →
    rcDecode (rcEncode d) = d := by
  intro n
  induction n with
  | zero =>
    intro d hd
    have hdnil : d = [] := List.eq_nil_of_length_eq_zero (by omega)
    subst hdnil
    rw [rcEncode_branchB (by simp [zrun]) (by simp [zrun])]
    rw [rcDecode_singleton]
    simp [zrun]
  | succ n ih =>
    intro d hd
    have hz_le : min 255 (zrun d) ≤ zrun d := Nat.min_le_right _ _
    have hzrun_len := zrun_le_length d
    have hsplit : List.replicate (min 255 (zrun d)) 0 ++ d.drop (min 255 (zrun d)) = d := by
      conv_rhs => rw [← List.take_append_drop (min 255 (zrun d)) d]
      rw [take_zrun d _ hz_le]
    have hdroplen : (d.drop (min 255 (zrun d))).length = d.length - min 255 (zrun d) := by
      simp
    by_cases hA : min 255 (zrun d) = 255 ∧ (d.drop (min 255 (zrun d))).headD 1 = 0
    · rw [rcEncode_branchA hA, rcDecode_cons_cons]
      have hlen1 : (d.drop (min 255 (zrun d))).length ≤ n := by
        rw [hdroplen, hA.1]
        have : 255 ≤ zrun d := by omega
        omega
      simp only [List.take_zero, List.drop_zero, List.nil_append]
      rw [ih (d.drop (min 255 (zrun d))) hlen1]
      exact hsplit
    · by_cases hB : d.drop (min 255 (zrun d)) = []
      · rw [rcEncode_branchB hA hB, rcDecode_singleton]
        rw [hB] at hsplit
        simpa using hsplit
      · have hhead : (d.drop (min 255 (zrun d))).headD 1 ≠ 0 := by
          rcases Nat.lt_or_ge (zrun d) 255 with hlt | hge
          · have heq : min 255 (zrun d) = zrun d := by omega
            rw [heq]
            exact headD_drop_zrun d
          · have h255 : min 255 (zrun d) = 255 := by omega
            intro h0
            exact hA ⟨h255, h0⟩
        have hm1 : 1 ≤ min 255 (litLen (d.drop (min 255 (zrun d)))) := by
          have := litLen_pos hB hhead
          omega
        have hmlen : min 255 (litLen (d.drop (min 255 (zrun d))))
            ≤ (d.drop (min 255 (zrun d))).length :=
          le_trans (Nat.min_le_right _ _) (litLen_le_length _)
        have htakelen : ((d.drop (min 255 (zrun d))).take
            (min 255 (litLen (d.drop (min 255 (zrun d)))))).length
            = min 255 (litLen (d.drop (min 255 (zrun d)))) := by
          rw [List.length_take]
          omega
        by_cases hC : (d.drop (min 255 (zrun d))).drop
            (min 255 (litLen (d.drop (min 255 (zrun d))))) = []
        · rw [rcEncode_branchC1 hA hB hC, rcDecode_cons_cons]
          have hfull : (d.drop (min 255 (zrun d))).length
              ≤ min 255 (litLen (d.drop (min 255 (zrun d)))) :=
            List.drop_eq_nil_iff.mp hC
          rw [List.take_of_length_le (le_of_eq htakelen),
            List.drop_eq_nil_of_le (le_of_eq htakelen), rcDecode_nil, List.append_nil,
            List.take_of_length_le hfull]
          exact hsplit
        · rw [rcEncode_branchC2 hA hB hC, rcDecode_cons_cons]
          have hdrop2len : ((d.drop (min 255 (zrun d))).drop
              (min 255 (litLen (d.drop (min 255 (zrun d)))))).length ≤ n := by
            simp only [List.length_drop]
            have h0 : 0 < d.length := by
              by_contra h0
              push_neg at h0
              have : d = [] := List.eq_nil_of_length_eq_zero (by omega)
              subst this
              simp at hB
            omega
          rw [List.take_left' htakelen, List.drop_left' htakelen,
            ih _ hdrop2len, List.take_append_drop]
          exact hsplit

/-- C2: decoding the RunCodec encoding of any byte buffer, including the
empty one, returns the buffer unchanged.  (The repository has no RunCodec
source; rcEncode and rcDecode are modelled from spec section 4.2.) -/
theorem C2_runcodec_roundtrip (d : List Nat) (hbytes : ∀ b ∈ d, b < 256) :
    rcDecode (rcEncode d) = d := by
  clear hbytes
  exact rc_roundtrip_aux d.length d (le_refl _)

/-- Witness for C2 on the spec scenario buffer [0,0,0,5,5,0,0] and on the
empty buffer. -/
theorem C2_witness :
    rcDecode (rcEncode [0, 0, 0, 5, 5, 0, 0]) = [0, 0, 0, 5, 5, 0, 0] ∧
    rcDecode (rcEncode []) = [] :=
  ⟨C2_runcodec_roundtrip [0, 0, 0, 5, 5, 0, 0] (by decide),
   C2_runcodec_roundtrip [] (by decide)⟩
